import Mathlib

/-!
Shallow embedding of the ShrinkRay puzzle generation engine
(`scripts/generate-puzzles.mjs`) and proofs of the specification claims.

Words are lists of characters; JavaScript strings are modelled as `List Char`
(`charCodeAt` = `Char.toNat` on the ASCII range the engine works with).
JavaScript numbers appear in two roles: 32-bit wrapped integer arithmetic
(modelled as `Nat` with explicit `% 2^32`) and the floating-point values in
`[0,1)` produced by the random source (modelled as `ℚ`; for every quantity the
engine computes, `x/2^32 * n` with `n` far below `2^21` is exact in IEEE
doubles, so the rational model agrees with the JavaScript values).
The stateful `random()` closure is modelled as a pure stream `Nat → ℚ`
together with an explicit cursor that each draw advances by one.
-/

namespace ShrinkRay

abbrev Word := List Char

/-- Lexicographic comparison of words by character code, the order produced by
the JavaScript default `Array.prototype.sort` comparator on strings. -/
def wordLe : Word → Word → Bool
  | [], _ => true
  | _ :: _, [] => false
  | a :: as, b :: bs => if a = b then wordLe as bs else decide (a < b)

/-- `wordLe` as a proposition, for use with `List.insertionSort`. -/
def WLe (a b : Word) : Prop := wordLe a b = true

instance : DecidableRel WLe := fun a b => inferInstanceAs (Decidable (wordLe a b = true))

/-- `sortedLetters(word)`: the word's characters in sorted order
(`[...word].sort().join('')`).  Equal characters are identical values, so any
correct sorting algorithm returns the same list as the JavaScript sort. -/
def sortedLetters (w : Word) : Word := List.insertionSort (· ≤ ·) w

/-- First-occurrence deduplication, the semantics of iterating a JavaScript
`Set` built from a list (`[...new Set(l)]`). -/
def setDedupAux {α : Type} [DecidableEq α] (seen : List α) : List α → List α
  | [] => []
  | a :: l => if a ∈ seen then setDedupAux seen l else a :: setDedupAux (a :: seen) l

/-- `[...new Set(l)]`: drop later duplicates, keep first occurrences. -/
def setDedup {α : Type} [DecidableEq α] (l : List α) : List α := setDedupAux [] l

/-- Lookup in an association list modelling the JavaScript `Map` of buckets. -/
def alistGet : List (Word × List Word) → Word → Option (List Word)
  | [], _ => none
  | (k0, v) :: rest, k => if k0 = k then some v else alistGet rest k

/-- The body of the bucket-construction loop: `if (!buckets.has(key))
buckets.set(key, []); buckets.get(key).push(word)`. -/
def alistPush : List (Word × List Word) → Word → Word → List (Word × List Word)
  | [], k, w => [(k, [w])]
  | (k0, v) :: rest, k, w =>
    if k0 = k then (k0, v ++ [w]) :: rest else (k0, v) :: alistPush rest k w

/-- The anagram-bucket index: every dictionary word pushed onto the bucket of
its sorted-letter signature, in dictionary order. -/
def buildBuckets (dict : List Word) : List (Word × List Word) :=
  dict.foldl (fun m w => alistPush m (sortedLetters w) w) []

/-- `buckets.get(signature) ?? []`. -/
def bucketGet (m : List (Word × List Word)) (k : Word) : List Word :=
  (alistGet m k).getD []

/-- `getNextWords(word)`: for each single-character deletion from the word's
signature (deduplicated), union the corresponding buckets, deduplicate, sort. -/
def getNextWords (dict : List Word) (w : Word) : List Word :=
  if w.length ≤ 3 then []
  else
    let s := sortedLetters w
    let sigs := setDedup ((List.range s.length).map (fun i => s.eraseIdx i))
    let cands := setDedup (sigs.flatMap (fun sig => bucketGet (buildBuckets dict) sig))
    List.insertionSort WLe cands

/-- `isSolvable(word)` with explicit recursion fuel.  In the source the
recursion is on words one letter shorter at each level, so fuel equal to the
word's length always suffices; the memo table is a pure optimisation and does
not change the computed value. -/
def isSolvableF (dict : List Word) : Nat → Word → Bool
  | 0, _ => false
  | fuel + 1, w =>
    if w.length = 3 then true
    else (getNextWords dict w).any (fun c => isSolvableF dict fuel c)

/-- `isSolvable(word)`: length-3 words are solvable; longer words are solvable
iff some next word is. -/
def isSolvable (dict : List Word) (w : Word) : Bool := isSolvableF dict w.length w

/-- `dictionary.filter(len 7).filter(isSolvable).sort()`. -/
def validSevenLetterWords (dict : List Word) : List Word :=
  List.insertionSort WLe ((dict.filter (fun w => w.length == 7)).filter (fun w => isSolvable dict w))

/-- `Math.floor(q * n)` for a random draw `q` (exact for the magnitudes the
engine produces). -/
def jsFloorIdx (q : ℚ) (n : Nat) : Nat := (⌊q * (n : ℚ)⌋).toNat

/-- `[copy[i], copy[j]] = [copy[j], copy[i]]`; in the source both indices are
always in range (`0 ≤ j ≤ i < length`). -/
def swapL {α : Type} (l : List α) (i j : Nat) : List α :=
  match l.get? i, l.get? j with
  | some a, some b => (l.set i b).set j a
  | _, _ => l

/-- The Fisher–Yates loop of `shuffled`, counting the loop variable down and
advancing the random cursor once per iteration. -/
def shuffleGo {α : Type} (r : Nat → ℚ) : Nat → List α → Nat → List α × Nat
  | 0, l, k => (l, k)
  | i + 1, l, k => shuffleGo r i (swapL l (i + 1) (jsFloorIdx (r k) (i + 2))) (k + 1)

/-- `shuffled(items, random)`: Fisher–Yates over a copy of `items`, returning
the shuffled copy and the advanced random cursor. -/
def shuffled {α : Type} (r : Nat → ℚ) (items : List α) (k : Nat) : List α × Nat :=
  shuffleGo r (items.length - 1) items k

/-- Sequentially try candidates: the first candidate for which `g` succeeds
wins and the loop stops; failed attempts keep advancing the random cursor. -/
def tryFold (g : Word → Nat → Option (List Word) × Nat) (cands : List Word)
    (acc : Option (List Word) × Nat) : Option (List Word) × Nat :=
  cands.foldl (fun a c =>
    match a with
    | (some t, k) => (some t, k)
    | (none, k) => g c k) acc

/-- The `dfs` helper of `buildChain`, with explicit fuel.  Every candidate is
one letter shorter than its parent, so fuel equal to the start word's length
makes this agree with the unbounded JavaScript recursion on all inputs. -/
def dfs (dict : List Word) (r : Nat → ℚ) : Nat → Word → Nat → Option (List Word) × Nat
  | 0, _, k => (none, k)
  | fuel + 1, w, k =>
    if w.length = 3 then (some [w], k)
    else
      match tryFold (dfs dict r fuel) (shuffled r (getNextWords dict w) k).1
          (none, (shuffled r (getNextWords dict w) k).2) with
      | (some tail, k2) => (some (w :: tail), k2)
      | (none, k2) => (none, k2)

/-- `buildChain(startWord, random)`: depth-first search over shuffled
candidates from `startWord` down to length 3. -/
def buildChain (dict : List Word) (r : Nat → ℚ) (startWord : Word) (k : Nat) :
    Option (List Word) × Nat :=
  dfs dict r startWord.length startWord k

/-- `2^32`, the wrap modulus of the 32-bit generator arithmetic. -/
def M32 : Nat := 4294967296

/-- One call of the `mulberry32` closure: new internal seed and the 32-bit
numerator of the returned value (the result is `numerator / 2^32`).  All the
bitwise JavaScript operators coerce to 32 bits, so the whole computation is
carried out on bit patterns modulo `2^32`. -/
def mulberryNext (s : Nat) : Nat × Nat :=
  let s1 := (s + 0x6d2b79f5) % M32
  let t1 := ((s1 ^^^ (s1 >>> 15)) * (s1 ||| 1)) % M32
  let t2 := t1 ^^^ ((t1 + ((t1 ^^^ (t1 >>> 7)) * (t1 ||| 61)) % M32) % M32)
  (s1, t2 ^^^ (t2 >>> 14))

/-- The internal seed of `mulberry32(seed)` before the `(k+1)`-th call. -/
def mulberryState (seed : Nat) : Nat → Nat
  | 0 => seed
  | k + 1 => (mulberryNext (mulberryState seed k)).1

/-- Numerator of the `k`-th output of `mulberry32(seed)`. -/
def mulberryNum (seed k : Nat) : Nat := (mulberryNext (mulberryState seed k)).2

/-- The `k`-th output of `mulberry32(seed)`, a rational in `[0,1)`. -/
def mulberryStream (seed : Nat) (k : Nat) : ℚ := (mulberryNum seed k : ℚ) / (M32 : ℚ)

/-- `stringToSeed`: base-31 rolling hash over character codes, wrapped
unsigned to 32 bits at each step (`>>> 0`). -/
def stringToSeed (s : List Char) : Nat :=
  s.foldl (fun seed c => (seed * 31 + c.toNat) % 4294967296) 0

/-- A local calendar date as the engine sees it (year, month 1-12, day). -/
structure Date where
  year : Nat
  month : Nat
  day : Nat
deriving DecidableEq

/-- Gregorian leap-year rule, as implemented by the JavaScript `Date`. -/
def isLeapYear (y : Nat) : Bool := (y % 4 == 0 && y % 100 != 0) || y % 400 == 0

/-- Number of days of a month in the Gregorian calendar. -/
def daysInMonth (y m : Nat) : Nat :=
  if m = 2 then (if isLeapYear y then 29 else 28)
  else if m = 4 || m = 6 || m = 9 || m = 11 then 30
  else 31

/-- The calendar successor of a date. -/
def nextDay (d : Date) : Date :=
  if d.day < daysInMonth d.year d.month then ⟨d.year, d.month, d.day + 1⟩
  else if d.month < 12 then ⟨d.year, d.month + 1, 1⟩
  else ⟨d.year + 1, 1, 1⟩

/-- `date.setDate(startDate.getDate() + offset)`: JavaScript normalises the
overflowing day-of-month through its epoch arithmetic, which on calendar dates
is exactly `offset` applications of the calendar successor. -/
def addDays (d : Date) : Nat → Date
  | 0 => d
  | n + 1 => nextDay (addDays d n)

/-- A well-formed calendar date (what `new Date(y, m, d)` without overflow and
`parseStartDate` produce). -/
def ValidDate (d : Date) : Prop :=
  1 ≤ d.month ∧ d.month ≤ 12 ∧ 1 ≤ d.day ∧ d.day ≤ daysInMonth d.year d.month

instance (d : Date) : Decidable (ValidDate d) := by unfold ValidDate; infer_instance

/-- Rank used to show that the calendar successor strictly advances dates. -/
def dateRank (d : Date) : Nat := d.year * 500 + d.month * 40 + d.day

/-- Decimal digits of a natural number (the JavaScript `String(n)` /
template-literal conversion for the integral values used here), with fuel;
`n + 1` units of fuel always suffice. -/
def natDecimalF : Nat → Nat → List Char
  | 0, _ => []
  | fuel + 1, n =>
    if n < 10 then [Nat.digitChar n] else natDecimalF fuel (n / 10) ++ [Nat.digitChar (n % 10)]

/-- Decimal representation of a natural number. -/
def natDecimal (n : Nat) : List Char := natDecimalF (n + 1) n

/-- `String(n).padStart(2, '0')`. -/
def pad2 (n : Nat) : List Char :=
  if (natDecimal n).length < 2 then '0' :: natDecimal n else natDecimal n

/-- Read decimal digits back; inverse of `natDecimal`, used to prove date
strings injective. -/
def decOf (s : List Char) : Nat := s.foldl (fun a c => a * 10 + (c.toNat - 48)) 0

/-- `getLocalDateString(date)`: `` `${year}-${month}-${day}` `` with the month
and day zero-padded to two characters. -/
def getLocalDateString (d : Date) : List Char :=
  natDecimal d.year ++ '-' :: (pad2 d.month ++ '-' :: pad2 d.day)

/-- One generated puzzle record (`date`, `startWord`, `words` and the
length-keyed `solution` fields). -/
structure Puzzle where
  date : List Char
  startWord : Word
  words : List Word
  six : Word
  five : Word
  four : Word
  three : Word
deriving DecidableEq

/-- One iteration of the `generatePuzzles` loop: derive the date string, seed
`mulberry32` from its hash, pick the start word with the first draw, then hand
the same still-advancing generator (cursor 1) to `buildChain`; fail unless a
length-5 chain comes back. -/
def genOne (dict : List Word) (sd : Date) (off : Nat) : Except String Puzzle :=
  let dateString := getLocalDateString (addDays sd off)
  let r := mulberryStream (stringToSeed dateString)
  let sws := validSevenLetterWords dict
  let startWord := sws.getD (jsFloorIdx (r 0) sws.length) []
  match buildChain dict r startWord 1 with
  | (some chain, _) =>
    if chain.length = 5 then
      .ok { date := dateString, startWord := startWord, words := chain,
            six := chain.getD 1 [], five := chain.getD 2 [],
            four := chain.getD 3 [], three := chain.getD 4 [] }
    else .error "Could not build full chain"
  | (none, _) => .error "Could not build full chain"

/-- The `generatePuzzles` loop from `off` for `n` offsets; a thrown error
aborts the whole run with no partial output. -/
def genFrom (dict : List Word) (sd : Date) : Nat → Nat → Except String (List Puzzle)
  | _, 0 => .ok []
  | off, n + 1 =>
    match genOne dict sd off with
    | .error e => .error e
    | .ok p =>
      match genFrom dict sd (off + 1) n with
      | .error e => .error e
      | .ok rest => .ok (p :: rest)

/-- `generatePuzzles({startDate, days}, engine)`. -/
def generatePuzzles (dict : List Word) (sd : Date) (days : Nat) : Except String (List Puzzle) :=
  genFrom dict sd 0 days

/-- JavaScript whitespace characters relevant to `trim` on the ASCII range. -/
def isWhitespaceJS (c : Char) : Bool :=
  c = ' ' || c = '\t' || c = '\n' || c = '\r' || c = '\x0b' || c = '\x0c'

/-- `word.trim()`. -/
def jsTrim (s : List Char) : List Char :=
  ((s.dropWhile isWhitespaceJS).reverse.dropWhile isWhitespaceJS).reverse

/-- `word.toUpperCase()` on the ASCII range the dictionary filter accepts. -/
def jsToUpper (c : Char) : Char :=
  if 'a' ≤ c && c ≤ 'z' then Char.ofNat (c.toNat - 32) else c

/-- Character class of the regular expression `[A-Z]`. -/
def isUpperAZ (c : Char) : Bool := 'A' ≤ c && c ≤ 'Z'

/-- The test `/^[A-Z]{3,7}$/.test(word)`. -/
def matchesWordPattern (w : List Char) : Bool :=
  decide (3 ≤ w.length) && decide (w.length ≤ 7) && w.all isUpperAZ

/-- The dictionary normaliser of `buildEngine`: trim, uppercase, keep words
matching `^[A-Z]{3,7}$`, deduplicate keeping first occurrences. -/
def normalize (raw : List (List Char)) : List Word :=
  setDedup ((raw.map (fun w => (jsTrim w).map jsToUpper)).filter matchesWordPattern)

/-- Whether the engine's chain check (`!chain || chain.length !== 5`) fires for
the start word the generator picks on day `off`. -/
def chainFailure (dict : List Word) (sd : Date) (off : Nat) : Prop :=
  let dateString := getLocalDateString (addDays sd off)
  let r := mulberryStream (stringToSeed dateString)
  let sws := validSevenLetterWords dict
  let startWord := sws.getD (jsFloorIdx (r 0) sws.length) []
  (buildChain dict r startWord 1).1 = none ∨
    ∃ ch, (buildChain dict r startWord 1).1 = some ch ∧ ch.length ≠ 5

/-- The whole generation run: build the engine from the raw word list (the
engine constructor throws when no solvable 7-letter word exists, before any
date is processed), then generate the requested records. -/
def runGeneration (raw : List (List Char)) (sd : Date) (days : Nat) :
    Except String (List Puzzle) :=
  let dict := normalize raw
  if (validSevenLetterWords dict).isEmpty then
    .error "No solvable 7-letter words found. Add more words to the dictionary source."
  else generatePuzzles dict sd days

/-- Modelled from the spec wording of 4.6: the per-date seed is the base-31
polynomial rolling hash of the ISO date string over character codes,
unsigned-wrapped to 32 bits. -/
def specSeed (s : List Char) : Nat :=
  s.foldl (fun h c => (h * 31 + c.toNat) % 4294967296) 0

/-- Modelled from the spec wording of 4.6: the sorted list of all
provably-solvable 7-letter dictionary words. -/
def specSolvable7 (dict : List Word) : List Word :=
  List.insertionSort WLe (dict.filter (fun w => w.length == 7 && isSolvable dict w))

/-- Modelled from the spec wording of 4.6: the whole per-date assembler step —
hash the ISO date string with the base-31 rolling hash, seed the generator,
pick `startWord` by `floor(random() * count)` (the generator's first draw)
into the sorted solvable 7-letter list, then hand the same still-advancing
generator instance (cursor 1) to `buildChain`. -/
def specAssembleStep (dict : List Word) (sd : Date) (off : Nat) : Except String Puzzle :=
  let dateString := getLocalDateString (addDays sd off)
  let r := mulberryStream (specSeed dateString)
  let sws := specSolvable7 dict
  let startWord := sws.getD (jsFloorIdx (r 0) sws.length) []
  match buildChain dict r startWord 1 with
  | (some chain, _) =>
    if chain.length = 5 then
      .ok { date := dateString, startWord := startWord, words := chain,
            six := chain.getD 1 [], five := chain.getD 2 [],
            four := chain.getD 3 [], three := chain.getD 4 [] }
    else .error "Could not build full chain"
  | (none, _) => .error "Could not build full chain"

/-- Expected list of word lengths of a chain starting at length `L`:
`[L, L-1, ..., 3]`. -/
def lensAux : Nat → Nat → List Nat
  | 0, L => [L]
  | k + 1, L => L :: lensAux k (L - 1)

/-- `lens L = [L, L-1, ..., 3]` for `L ≥ 3`. -/
def lens (L : Nat) : List Nat := lensAux (L - 3) L

/-- Concrete dictionary from the spec's worked scenario (section 8). -/
def exDict : List Word :=
  [['B','A','N','A','N','A','S'], ['B','A','N','A','N','A'], ['A','N','A','N','A','S'],
   ['A','N','A','N','A'], ['B','A','N','A','N'], ['N','A','A','N'], ['A','N','A'],
   ['N','A','N']]

/-- The 7-letter start word of the worked scenario. -/
def exStart : Word := ['B','A','N','A','N','A','S']

/-- A concrete random source that always returns `0`. -/
def rZero : Nat → ℚ := fun _ => 0

/-- A concrete valid start date. -/
def exDate : Date := ⟨2024, 1, 1⟩

/-! ### Order lemmas for the word comparison -/

theorem wordLe_total : ∀ a b : Word, wordLe a b = true ∨ wordLe b a = true := by
  intro a
  induction a with
  | nil => intro b; left; rfl
  | cons x as ih =>
    intro b
    cases b with
    | nil => right; rfl
    | cons y bs =>
      by_cases hxy : x = y
      · subst hxy
        rcases ih bs with h | h
        · left; simpa [wordLe] using h
        · right; simpa [wordLe] using h
      · rcases lt_or_gt_of_ne hxy with h | h
        · left; simp [wordLe, hxy, h]
        · right; simp [wordLe, Ne.symm hxy, h]

theorem wordLe_trans : ∀ a b c : Word, wordLe a b = true → wordLe b c = true →
    wordLe a c = true := by
  intro a
  induction a with
  | nil => intro b c _ _; rfl
  | cons x as ih =>
    intro b c hab hbc
    cases b with
    | nil => simp [wordLe] at hab
    | cons y bs =>
      cases c with
      | nil => simp [wordLe] at hbc
      | cons z cs =>
        by_cases hxy : x = y <;> by_cases hyz : y = z
        · subst hxy; subst hyz
          simp only [wordLe, if_pos rfl] at hab hbc ⊢
          exact ih bs cs hab hbc
        · subst hxy
          rw [wordLe, if_neg hyz, decide_eq_true_eq] at hbc
          rw [wordLe, if_neg hyz, decide_eq_true_eq]
          exact hbc
        · subst hyz
          rw [wordLe, if_neg hxy, decide_eq_true_eq] at hab
          rw [wordLe, if_neg hxy, decide_eq_true_eq]
          exact hab
        · rw [wordLe, if_neg hxy, decide_eq_true_eq] at hab
          rw [wordLe, if_neg hyz, decide_eq_true_eq] at hbc
          have hxz : x < z := lt_trans hab hbc
          rw [wordLe, if_neg (ne_of_lt hxz), decide_eq_true_eq]
          exact hxz

instance : IsTotal Word WLe := ⟨wordLe_total⟩

instance : IsTrans Word WLe := ⟨wordLe_trans⟩

/-! ### Set-style deduplication -/

theorem mem_setDedupAux {α : Type} [DecidableEq α] (x : α) :
    ∀ (l seen : List α), x ∈ setDedupAux seen l ↔ x ∈ l ∧ x ∉ seen := by
  intro l
  induction l with
  | nil => intro seen; simp [setDedupAux]
  | cons a l ih =>
    intro seen
    by_cases ha : a ∈ seen
    · rw [setDedupAux, if_pos ha, ih]
      simp only [List.mem_cons]
      by_cases hxa : x = a
      · subst hxa; tauto
      · tauto
    · rw [setDedupAux, if_neg ha]
      simp only [List.mem_cons, ih]
      by_cases hxa : x = a
      · subst hxa; tauto
      · tauto

theorem mem_setDedup {α : Type} [DecidableEq α] {x : α} {l : List α} :
    x ∈ setDedup l ↔ x ∈ l := by
  rw [setDedup, mem_setDedupAux]
  simp

theorem nodup_setDedupAux {α : Type} [DecidableEq α] :
    ∀ (l seen : List α), (setDedupAux seen l).Nodup := by
  intro l
  induction l with
  | nil => intro seen; simp [setDedupAux]
  | cons a l ih =>
    intro seen
    by_cases ha : a ∈ seen
    · rw [setDedupAux, if_pos ha]; exact ih seen
    · rw [setDedupAux, if_neg ha]
      refine List.nodup_cons.mpr ⟨?_, ih _⟩
      intro hmem
      exact ((mem_setDedupAux a l (a :: seen)).mp hmem).2 (List.mem_cons_self a seen)

theorem nodup_setDedup {α : Type} [DecidableEq α] (l : List α) : (setDedup l).Nodup :=
  nodup_setDedupAux l []

/-! ### The bucket index is the signature-filtered dictionary -/

theorem alistGet_alistPush (m : List (Word × List Word)) (k k' : Word) (w : Word) :
    alistGet (alistPush m k w) k' =
      if k' = k then some ((alistGet m k).getD [] ++ [w]) else alistGet m k' := by
  induction m with
  | nil =>
    by_cases h : k' = k
    · subst h; simp [alistPush, alistGet]
    · simp [alistPush, alistGet, h, Ne.symm h]
  | cons p m ih =>
    obtain ⟨k0, v⟩ := p
    by_cases h0 : k0 = k
    · subst h0
      by_cases h : k' = k0
      · subst h; simp [alistPush, alistGet]
      · simp [alistPush, alistGet, h, Ne.symm h]
    · by_cases h : k0 = k'
      · subst h
        simp [alistPush, alistGet, h0]
      · simp [alistPush, alistGet, h, h0, ih]

theorem bucketGet_foldl (dict : List Word) :
    ∀ (m : List (Word × List Word)) (sig : Word),
      bucketGet (dict.foldl (fun m w => alistPush m (sortedLetters w) w) m) sig =
        bucketGet m sig ++ dict.filter (fun w => sortedLetters w == sig) := by
  induction dict with
  | nil => intro m sig; simp
  | cons w dict ih =>
    intro m sig
    rw [List.foldl_cons, ih, List.filter_cons]
    by_cases h : sortedLetters w = sig
    · have hbeq : (sortedLetters w == sig) = true := beq_iff_eq.mpr h
      rw [hbeq]
      simp only [bucketGet, alistGet_alistPush, if_pos h.symm, h]
      simp
    · have hbeq : (sortedLetters w == sig) = false := beq_eq_false_iff_ne.mpr h
      rw [hbeq]
      simp only [bucketGet, alistGet_alistPush, if_neg (fun hh : sig = sortedLetters w => h hh.symm)]
      simp

theorem bucketGet_buildBuckets (dict : List Word) (sig : Word) :
    bucketGet (buildBuckets dict) sig = dict.filter (fun w => sortedLetters w == sig) := by
  rw [buildBuckets, bucketGet_foldl]
  simp [bucketGet, alistGet]

theorem mem_bucketGet {dict : List Word} {sig c : Word} :
    c ∈ bucketGet (buildBuckets dict) sig ↔ c ∈ dict ∧ sortedLetters c = sig := by
  rw [bucketGet_buildBuckets, List.mem_filter, beq_iff_eq]

/-! ### Reachability query -/

theorem length_sortedLetters (w : Word) : (sortedLetters w).length = w.length :=
  (List.perm_insertionSort _ w).length_eq

theorem getNextWords_eq_nil {dict : List Word} {w : Word} (h : w.length ≤ 3) :
    getNextWords dict w = [] := by
  rw [getNextWords, if_pos h]

theorem mem_getNextWords {dict : List Word} {w c : Word} (hc : c ∈ getNextWords dict w) :
    3 < w.length ∧ c ∈ dict ∧
      ∃ i < (sortedLetters w).length, sortedLetters c = (sortedLetters w).eraseIdx i := by
  by_cases h : w.length ≤ 3
  · rw [getNextWords_eq_nil h] at hc
    simp at hc
  · refine ⟨by omega, ?_⟩
    rw [getNextWords, if_neg h] at hc
    simp only [List.mem_insertionSort, mem_setDedup, List.mem_flatMap, List.mem_map,
      List.mem_range] at hc
    obtain ⟨sig, ⟨i, hi, hsig⟩, hcb⟩ := hc
    obtain ⟨hcd, hcs⟩ := mem_bucketGet.mp hcb
    exact ⟨hcd, i, hi, by rw [hcs, hsig]⟩

theorem length_of_mem_getNextWords {dict : List Word} {w c : Word}
    (hc : c ∈ getNextWords dict w) : c.length = w.length - 1 := by
  obtain ⟨h3, _, i, hi, hsig⟩ := mem_getNextWords hc
  have h1 := length_sortedLetters c
  have h2 := length_sortedLetters w
  have h3' := congrArg List.length hsig
  rw [h1, List.length_eraseIdx, if_pos hi] at h3'
  omega

theorem nodup_getNextWords (dict : List Word) (w : Word) : (getNextWords dict w).Nodup := by
  by_cases h : w.length ≤ 3
  · rw [getNextWords_eq_nil h]; exact List.nodup_nil
  · rw [getNextWords, if_neg h]
    exact (List.perm_insertionSort _ _).symm.nodup (nodup_setDedup _)

theorem sorted_getNextWords (dict : List Word) (w : Word) :
    List.Sorted WLe (getNextWords dict w) := by
  by_cases h : w.length ≤ 3
  · rw [getNextWords_eq_nil h]; exact List.sorted_nil
  · rw [getNextWords, if_neg h]
    exact List.sorted_insertionSort WLe _

/-! ### Solvability -/

theorem isSolvable_base {dict : List Word} {w : Word} (h : w.length = 3) :
    isSolvable dict w = true := by
  rw [isSolvable, h, isSolvableF, if_pos h]

theorem isSolvable_short {dict : List Word} {w : Word} (h : w.length ≤ 3) (h3 : w.length ≠ 3) :
    isSolvable dict w = false := by
  rw [isSolvable]
  rcases hL : w.length with _ | L
  · rw [isSolvableF]
  · rw [isSolvableF, if_neg h3, getNextWords_eq_nil h]
    rfl

theorem isSolvable_iff_exists {dict : List Word} {w : Word} (h : 3 < w.length) :
    isSolvable dict w = true ↔ ∃ c ∈ getNextWords dict w, isSolvable dict c = true := by
  have hL : w.length = (w.length - 1) + 1 := by omega
  rw [isSolvable]
  conv_lhs => rw [hL]
  rw [isSolvableF, if_neg (by omega : ¬ w.length = 3), List.any_eq_true]
  constructor
  · rintro ⟨c, hc, hcs⟩
    refine ⟨c, hc, ?_⟩
    rw [isSolvable]
    have := length_of_mem_getNextWords hc
    rwa [this]
  · rintro ⟨c, hc, hcs⟩
    refine ⟨c, hc, ?_⟩
    rw [isSolvable] at hcs
    have := length_of_mem_getNextWords hc
    rwa [this] at hcs

/-! ### The Fisher–Yates shuffle permutes its input -/

theorem cons_set_perm {α : Type} (a : α) :
    ∀ (m : Nat) (l : List α) (b : α), l.get? m = some b → (b :: l.set m a).Perm (a :: l) := by
  intro m
  induction m with
  | zero =>
    intro l b hb
    cases l with
    | nil => simp at hb
    | cons c t =>
      injection hb with hb
      rw [List.set_cons_zero, hb]
      exact List.Perm.swap a b t
  | succ m ih =>
    intro l b hb
    cases l with
    | nil => simp at hb
    | cons c t =>
      have hb' : t.get? m = some b := hb
      rw [List.set_cons_succ]
      exact (List.Perm.swap c b _).trans (((ih t b hb').cons c).trans (List.Perm.swap a c t))

theorem set_set_perm {α : Type} :
    ∀ (l : List α) (i j : Nat) (a b : α), l.get? i = some a → l.get? j = some b →
      ((l.set i b).set j a).Perm l := by
  intro l
  induction l with
  | nil => intro i j a b ha _; simp at ha
  | cons c t ih =>
    intro i j a b ha hb
    cases i with
    | zero =>
      injection ha with ha
      cases j with
      | zero =>
        injection hb with hb
        rw [List.set_cons_zero, List.set_cons_zero, ← ha]
      | succ j =>
        have hb' : t.get? j = some b := hb
        rw [List.set_cons_zero, List.set_cons_succ, ha]
        exact cons_set_perm a j t b hb'
    | succ i =>
      have ha' : t.get? i = some a := ha
      cases j with
      | zero =>
        injection hb with hb
        rw [List.set_cons_succ, List.set_cons_zero, hb]
        exact cons_set_perm b i t a ha'
      | succ j =>
        have hb' : t.get? j = some b := hb
        rw [List.set_cons_succ, List.set_cons_succ]
        exact (ih i j a b ha' hb').cons c

theorem swapL_perm {α : Type} (l : List α) (i j : Nat) : (swapL l i j).Perm l := by
  rw [swapL]
  rcases hi : l.get? i with - | a
  · exact List.Perm.refl l
  · rcases hj : l.get? j with - | b
    · exact List.Perm.refl l
    · exact set_set_perm l i j a b hi hj

theorem shuffleGo_perm {α : Type} (r : Nat → ℚ) :
    ∀ (i : Nat) (l : List α) (k : Nat), ((shuffleGo r i l k).1).Perm l := by
  intro i
  induction i with
  | zero => intro l k; exact List.Perm.refl l
  | succ i ih =>
    intro l k
    rw [shuffleGo]
    exact (ih _ _).trans (swapL_perm l (i + 1) _)

theorem shuffled_perm {α : Type} (r : Nat → ℚ) (items : List α) (k : Nat) :
    ((shuffled r items k).1).Perm items :=
  shuffleGo_perm r (items.length - 1) items k

/-! ### The candidate loop of the depth-first search -/

theorem tryFold_some_acc {g : Word → Nat → Option (List Word) × Nat} (t : List Word) (k : Nat) :
    ∀ l, tryFold g l (some t, k) = (some t, k) := by
  intro l
  induction l with
  | nil => rfl
  | cons c rest ih => exact ih

theorem tryFold_cons {g : Word → Nat → Option (List Word) × Nat} (c0 : Word)
    (rest : List Word) (k : Nat) :
    tryFold g (c0 :: rest) (none, k) = tryFold g rest (g c0 k) := rfl

theorem tryFold_some {g : Word → Nat → Option (List Word) × Nat} :
    ∀ (cands : List Word) (k t : _) (k2 : Nat),
      tryFold g cands (none, k) = (some t, k2) → ∃ c ∈ cands, ∃ k1, g c k1 = (some t, k2) := by
  intro cands
  induction cands with
  | nil =>
    intro k t k2 h
    simp [tryFold] at h
  | cons c rest ih =>
    intro k t k2 h
    rw [tryFold_cons] at h
    rcases hg : g c k with ⟨o, k1⟩
    rw [hg] at h
    cases o with
    | some t0 =>
      rw [tryFold_some_acc] at h
      obtain ⟨h1, h2⟩ := Prod.mk.injEq .. ▸ h
      injection h1 with h1
      exact ⟨c, List.mem_cons_self c rest, k, by rw [hg, h1, h2]⟩
    | none =>
      obtain ⟨c1, hc1, k3, hg1⟩ := ih k1 t k2 h
      exact ⟨c1, List.mem_cons_of_mem c hc1, k3, hg1⟩

theorem tryFold_succeeds {g : Word → Nat → Option (List Word) × Nat} {c : Word}
    (hc : ∀ k, ∃ t k2, g c k = (some t, k2)) :
    ∀ (cands : List Word), c ∈ cands → ∀ k, ∃ t k2, tryFold g cands (none, k) = (some t, k2) := by
  intro cands
  induction cands with
  | nil => intro h; simp at h
  | cons c0 rest ih =>
    intro hmem k
    rcases List.mem_cons.mp hmem with rfl | hmem'
    · obtain ⟨t, k2, hgc⟩ := hc k
      rw [tryFold_cons, hgc]
      exact ⟨t, k2, tryFold_some_acc t k2 rest⟩
    · rw [tryFold_cons]
      rcases hg0 : g c0 k with ⟨o, k1⟩
      cases o with
      | some t0 => exact ⟨t0, k1, tryFold_some_acc t0 k1 rest⟩
      | none => exact ih hmem' k1

/-! ### Soundness and completeness of the depth-first search -/

theorem lens_three : lens 3 = [3] := rfl

theorem lens_unfold {L : Nat} (h : 3 < L) : lens L = L :: lens (L - 1) := by
  have h4 : L - 3 = (L - 4) + 1 := by omega
  rw [lens, h4, lensAux]
  have h5 : (L - 1) - 3 = L - 4 := by omega
  rw [lens, h5]

theorem dfs_sound {dict : List Word} {r : Nat → ℚ} :
    ∀ (fuel : Nat) (w : Word) (k : Nat) (ch : List Word) (k2 : Nat),
      dfs dict r fuel w k = (some ch, k2) →
      ch.head? = some w ∧ ch.map List.length = lens w.length ∧
        List.Chain' (fun a b => b ∈ getNextWords dict a) ch := by
  intro fuel
  induction fuel with
  | zero =>
    intro w k ch k2 h
    simp [dfs] at h
  | succ fuel ih =>
    intro w k ch k2 h
    rw [dfs] at h
    by_cases h3 : w.length = 3
    · rw [if_pos h3] at h
      injection h with h1 h2
      injection h1 with h1
      subst h1
      refine ⟨rfl, ?_, List.chain'_singleton w⟩
      simp [h3, lens_three]
    · rw [if_neg h3] at h
      rcases ht : tryFold (dfs dict r fuel) (shuffled r (getNextWords dict w) k).1
          (none, (shuffled r (getNextWords dict w) k).2) with ⟨o, k3⟩
      rw [ht] at h
      cases o with
      | none => simp at h
      | some tail =>
        injection h with h1 h2
        injection h1 with h1
        subst h1
        obtain ⟨c, hcsh, k1, hgc⟩ := tryFold_some _ _ _ _ ht
        have hcm : c ∈ getNextWords dict w :=
          ((shuffled_perm r (getNextWords dict w) k).mem_iff).mp hcsh
        obtain ⟨hhead, hmap, hchain⟩ := ih c k1 tail k3 hgc
        have hclen : c.length = w.length - 1 := length_of_mem_getNextWords hcm
        have hgt : 3 < w.length := (mem_getNextWords hcm).1
        refine ⟨rfl, ?_, ?_⟩
        · rw [List.map_cons, hmap, hclen, lens_unfold hgt]
        · rw [List.chain'_cons']
          refine ⟨?_, hchain⟩
          intro y hy
          rw [hhead, Option.mem_some_iff] at hy
          subst hy
          exact hcm

theorem dfs_complete {dict : List Word} {r : Nat → ℚ} :
    ∀ (fuel : Nat) (w : Word), w.length ≤ fuel → isSolvable dict w = true →
      ∀ k, ∃ ch k2, dfs dict r fuel w k = (some ch, k2) := by
  intro fuel
  induction fuel with
  | zero =>
    intro w hw hs k
    have h0 : w.length = 0 := Nat.le_zero.mp hw
    rw [isSolvable, h0, isSolvableF] at hs
    exact absurd hs (by simp)
  | succ fuel ih =>
    intro w hw hs k
    rw [dfs]
    by_cases h3 : w.length = 3
    · exact ⟨[w], k, by rw [if_pos h3]⟩
    · rw [if_neg h3]
      have hgt : 3 < w.length := by
        rcases Nat.lt_or_ge 3 w.length with h | h
        · exact h
        · exact absurd hs (by rw [isSolvable_short h h3]; simp)
      obtain ⟨c, hcmem, hcs⟩ := (isSolvable_iff_exists hgt).mp hs
      have hclen : c.length = w.length - 1 := length_of_mem_getNextWords hcmem
      have hcfuel : c.length ≤ fuel := by omega
      have hcm : c ∈ (shuffled r (getNextWords dict w) k).1 :=
        ((shuffled_perm r (getNextWords dict w) k).mem_iff).mpr hcmem
      obtain ⟨t, k2, ht⟩ :=
        tryFold_succeeds (fun k1 => ih c hcfuel hcs k1) _ hcm
          (shuffled r (getNextWords dict w) k).2
      exact ⟨w :: t, k2, by rw [ht]⟩

/-! ### The seeded generator produces values in `[0,1)` -/

theorem xor32_lt {a b : Nat} (ha : a < M32) (hb : b < M32) : a ^^^ b < M32 := by
  have h : M32 = 2 ^ 32 := by norm_num [M32]
  rw [h] at ha hb ⊢
  exact Nat.bitwise_lt_two_pow ha hb

theorem M32_pos : 0 < M32 := by norm_num [M32]

theorem mulberryNum_lt (seed k : Nat) : mulberryNum seed k < M32 := by
  rw [mulberryNum, mulberryNext]
  have ht2 : ∀ a b : Nat, a < M32 → b < M32 → (a ^^^ b) >>> 14 < M32 := by
    intro a b ha hb
    refine lt_of_le_of_lt ?_ (xor32_lt ha hb)
    rw [Nat.shiftRight_eq_div_pow]
    exact Nat.div_le_self _ _
  exact xor32_lt (xor32_lt (Nat.mod_lt _ M32_pos) (Nat.mod_lt _ M32_pos))
    (ht2 _ _ (Nat.mod_lt _ M32_pos) (Nat.mod_lt _ M32_pos))

theorem mulberryStream_nonneg (seed k : Nat) : 0 ≤ mulberryStream seed k := by
  rw [mulberryStream]
  positivity

theorem mulberryStream_lt_one (seed k : Nat) : mulberryStream seed k < 1 := by
  rw [mulberryStream, div_lt_one (by exact_mod_cast M32_pos)]
  exact_mod_cast mulberryNum_lt seed k

theorem jsFloorIdx_lt {q : ℚ} {n : Nat} (h0 : 0 ≤ q) (h1 : q < 1) (hn : 0 < n) :
    jsFloorIdx q n < n := by
  rw [jsFloorIdx]
  have hq : q * (n : ℚ) < (n : ℚ) := by
    calc q * (n : ℚ) < 1 * (n : ℚ) := by
          exact mul_lt_mul_of_pos_right h1 (by exact_mod_cast hn)
      _ = (n : ℚ) := one_mul _
  have hfl : ⌊q * (n : ℚ)⌋ < (n : ℤ) := Int.floor_lt.mpr (by exact_mod_cast hq)
  omega

/-! ### The engine's start-word list -/

theorem getD_mem {l : List Word} {i : Nat} (h : i < l.length) : l.getD i [] ∈ l := by
  rw [List.getD_eq_getElem?_getD, List.getElem?_eq_getElem h]
  exact List.getElem_mem h

theorem mem_validSeven {dict : List Word} {w : Word} (h : w ∈ validSevenLetterWords dict) :
    w ∈ dict ∧ w.length = 7 ∧ isSolvable dict w = true := by
  rw [validSevenLetterWords, List.mem_insertionSort, List.mem_filter, List.mem_filter] at h
  obtain ⟨⟨hd, h7⟩, hs⟩ := h
  exact ⟨hd, by simpa using h7, hs⟩

/-! ### Calendar arithmetic -/

theorem daysInMonth_pos (y m : Nat) : 1 ≤ daysInMonth y m := by
  rw [daysInMonth]
  split_ifs <;> omega

theorem daysInMonth_le (y m : Nat) : daysInMonth y m ≤ 31 := by
  rw [daysInMonth]
  split_ifs <;> omega

theorem validDate_nextDay {d : Date} (h : ValidDate d) : ValidDate (nextDay d) := by
  obtain ⟨h1, h2, h3, h4⟩ := h
  rw [nextDay]
  split_ifs with ha hb
  · exact ⟨h1, h2, Nat.succ_le_succ (Nat.zero_le _), ha⟩
  · exact ⟨Nat.succ_le_succ (Nat.zero_le _), hb, le_refl 1, daysInMonth_pos _ _⟩
  · refine ⟨le_refl 1, ?_, le_refl 1, daysInMonth_pos _ _⟩
    show (1 : Nat) ≤ 12
    omega

theorem dateRank_lt_nextDay {d : Date} (h : ValidDate d) : dateRank d < dateRank (nextDay d) := by
  obtain ⟨h1, h2, h3, h4⟩ := h
  have hle := daysInMonth_le d.year d.month
  rw [nextDay]
  split_ifs with ha hb
  · simp [dateRank]
  · simp only [dateRank]
    omega
  · simp only [dateRank]
    omega

theorem validDate_addDays {d : Date} (h : ValidDate d) (n : Nat) : ValidDate (addDays d n) := by
  induction n with
  | zero => exact h
  | succ n ih => exact validDate_nextDay ih

theorem dateRank_addDays_strictMono {d : Date} (h : ValidDate d) :
    StrictMono (fun n => dateRank (addDays d n)) :=
  strictMono_nat_of_lt_succ fun n => dateRank_lt_nextDay (validDate_addDays h n)

/-! ### Decimal date strings are injective on valid dates -/

theorem decOf_append_digit (s : List Char) (c : Char) :
    decOf (s ++ [c]) = decOf s * 10 + (c.toNat - 48) := by
  rw [decOf, List.foldl_append]
  rfl

set_option maxRecDepth 4096 in
theorem digitChar_toNat : ∀ d, d < 10 → (Nat.digitChar d).toNat - 48 = d := by decide

theorem decOf_natDecimalF : ∀ (fuel n : Nat), n < fuel → decOf (natDecimalF fuel n) = n := by
  intro fuel
  induction fuel with
  | zero => intro n h; omega
  | succ fuel ih =>
    intro n h
    rw [natDecimalF]
    by_cases h10 : n < 10
    · rw [if_pos h10]
      have hd := digitChar_toNat n h10
      simp [decOf, hd]
    · rw [if_neg h10]
      have hdiv : n / 10 < fuel := by omega
      rw [decOf_append_digit, ih _ hdiv]
      have hm : n % 10 < 10 := Nat.mod_lt _ (by norm_num)
      rw [digitChar_toNat _ hm]
      omega

theorem decOf_natDecimal (n : Nat) : decOf (natDecimal n) = n :=
  decOf_natDecimalF (n + 1) n (Nat.lt_succ_self n)

theorem decOf_pad2 (n : Nat) : decOf (pad2 n) = n := by
  rw [pad2]
  split_ifs with h
  · have hz : decOf ('0' :: natDecimal n) = decOf (natDecimal n) := rfl
    rw [hz, decOf_natDecimal]
  · exact decOf_natDecimal n

set_option maxRecDepth 8192 in
theorem pad2_length : ∀ n, n < 100 → (pad2 n).length = 2 := by decide

theorem pad2_inj {a b : Nat} (h : pad2 a = pad2 b) : a = b := by
  have hc := congrArg decOf h
  rwa [decOf_pad2, decOf_pad2] at hc

theorem natDecimal_inj {a b : Nat} (h : natDecimal a = natDecimal b) : a = b := by
  have hc := congrArg decOf h
  rwa [decOf_natDecimal, decOf_natDecimal] at hc

theorem getLocalDateString_inj {a b : Date} (ha : ValidDate a) (hb : ValidDate b)
    (h : getLocalDateString a = getLocalDateString b) : a = b := by
  obtain ⟨ha1, ha2, ha3, ha4⟩ := ha
  obtain ⟨hb1, hb2, hb3, hb4⟩ := hb
  have hma : (pad2 a.month).length = 2 := pad2_length _ (by omega)
  have hmb : (pad2 b.month).length = 2 := pad2_length _ (by omega)
  have hda : (pad2 a.day).length = 2 :=
    pad2_length _ (by have := daysInMonth_le a.year a.month; omega)
  have hdb : (pad2 b.day).length = 2 :=
    pad2_length _ (by have := daysInMonth_le b.year b.month; omega)
  rw [getLocalDateString, getLocalDateString] at h
  obtain ⟨hy, hrest⟩ := List.append_inj' h (by simp [hma, hmb, hda, hdb])
  injection hrest with _ hrest
  obtain ⟨hm, hd⟩ := List.append_inj' hrest (by simp [hda, hdb])
  injection hd with _ hd
  have h1 : a.year = b.year := natDecimal_inj hy
  have h2 : a.month = b.month := pad2_inj hm
  have h3 : a.day = b.day := pad2_inj hd
  cases a with
  | mk ay am ad =>
    cases b with
    | mk by2 bm bd =>
      dsimp only at h1 h2 h3
      subst h1; subst h2; subst h3
      rfl

/-! ### The per-date generation step -/

theorem genOne_ok {dict : List Word} (hne : validSevenLetterWords dict ≠ []) (sd : Date)
    (off : Nat) :
    ∃ p, genOne dict sd off = Except.ok p ∧
      p.date = getLocalDateString (addDays sd off) := by
  simp only [genOne]
  set ds := getLocalDateString (addDays sd off) with hds
  set r := mulberryStream (stringToSeed ds) with hrdef
  set sws := validSevenLetterWords dict with hsws
  set sw := sws.getD (jsFloorIdx (r 0) sws.length) [] with hswdef
  have hlen : 0 < sws.length := List.length_pos.mpr (hsws ▸ hne)
  have hidx : jsFloorIdx (r 0) sws.length < sws.length :=
    jsFloorIdx_lt (hrdef ▸ mulberryStream_nonneg _ _) (hrdef ▸ mulberryStream_lt_one _ _) hlen
  have hmem : sw ∈ sws := hswdef ▸ getD_mem hidx
  obtain ⟨hdict, h7, hsolv⟩ := mem_validSeven (hsws ▸ hmem)
  obtain ⟨ch, k2, hb⟩ := @dfs_complete dict r sw.length sw le_rfl hsolv 1
  obtain ⟨hhead, hmap, hchain⟩ := dfs_sound sw.length sw 1 ch k2 hb
  have hb' : buildChain dict r sw 1 = (some ch, k2) := hb
  have hch5 : ch.length = 5 := by
    have h1 := congrArg List.length hmap
    rw [List.length_map, h7] at h1
    have h2 : (lens 7).length = 5 := by decide
    omega
  rw [hb']
  refine ⟨⟨ds, sw, ch, ch.getD 1 [], ch.getD 2 [], ch.getD 3 [], ch.getD 4 []⟩, ?_, rfl⟩
  simp [hch5]

theorem genFrom_ok {dict : List Word} (hne : validSevenLetterWords dict ≠ []) (sd : Date) :
    ∀ (n off : Nat), ∃ l, genFrom dict sd off n = Except.ok l ∧ l.length = n ∧
      l.map Puzzle.date = (List.range' off n).map (fun o => getLocalDateString (addDays sd o)) := by
  intro n
  induction n with
  | zero => intro off; exact ⟨[], rfl, rfl, rfl⟩
  | succ n ih =>
    intro off
    obtain ⟨p, hp, hpd⟩ := genOne_ok hne sd off
    obtain ⟨rest, hrest, hlen, hmap⟩ := ih (off + 1)
    refine ⟨p :: rest, ?_, by simp [hlen], ?_⟩
    · rw [genFrom, hp, hrest]
    · have hr : List.range' off (n + 1) = off :: List.range' (off + 1) n := rfl
      rw [hr, List.map_cons, List.map_cons, hpd, hmap]

/-! ### Error characterisation of a generation run -/

theorem genOne_error_iff (dict : List Word) (sd : Date) (off : Nat) :
    (∃ e, genOne dict sd off = Except.error e) ↔ chainFailure dict sd off := by
  simp only [genOne, chainFailure]
  rcases hb : buildChain dict
      (mulberryStream (stringToSeed (getLocalDateString (addDays sd off))))
      ((validSevenLetterWords dict).getD
        (jsFloorIdx (mulberryStream (stringToSeed (getLocalDateString (addDays sd off))) 0)
          (validSevenLetterWords dict).length) []) 1 with ⟨o, k2⟩
  cases o with
  | none => simp
  | some ch =>
    by_cases h5 : ch.length = 5
    · simp [h5]
    · simp [h5]

theorem genFrom_error_iff (dict : List Word) (sd : Date) :
    ∀ (n off : Nat), (∃ e, genFrom dict sd off n = Except.error e) ↔
      ∃ j, j < n ∧ chainFailure dict sd (off + j) := by
  intro n
  induction n with
  | zero =>
    intro off
    simp [genFrom]
  | succ n ih =>
    intro off
    rw [genFrom]
    rcases hg : genOne dict sd off with e | p
    · constructor
      · intro _
        refine ⟨0, Nat.succ_pos n, ?_⟩
        rw [Nat.add_zero]
        exact (genOne_error_iff dict sd off).mp ⟨e, hg⟩
      · intro _
        exact ⟨e, rfl⟩
    · rcases hrest : genFrom dict sd (off + 1) n with e2 | rest
      · constructor
        · intro _
          obtain ⟨j, hj, hcf⟩ := (ih (off + 1)).mp ⟨e2, hrest⟩
          refine ⟨j + 1, by omega, ?_⟩
          rw [show off + (j + 1) = off + 1 + j by omega]
          exact hcf
        · intro _
          exact ⟨e2, rfl⟩
      · constructor
        · rintro ⟨e, he⟩
          simp at he
        · rintro ⟨j, hj, hcf⟩
          exfalso
          cases j with
          | zero =>
            obtain ⟨e, he⟩ := (genOne_error_iff dict sd off).mpr (by rwa [Nat.add_zero] at hcf)
            rw [hg] at he
            simp at he
          | succ j =>
            obtain ⟨e, he⟩ := (ih (off + 1)).mpr
              ⟨j, by omega, by rwa [show off + (j + 1) = off + 1 + j by omega] at hcf⟩
            rw [hrest] at he
            simp at he

/-! ### Claim theorems -/

/-- C1: `buildChain` is deterministic: two calls with an identical `startWord`
and an identical seeded random source (same seed value, same `mulberry32`
generator) return identical chains.  In the embedding the engine is a pure
function of the dictionary, the start word and the seeded stream — there is no
other input a machine or an invocation could vary. -/
theorem buildChain_deterministic (dict : List Word) (w : Word) (s1 s2 k : Nat)
    (h : s1 = s2) :
    buildChain dict (mulberryStream s1) w k = buildChain dict (mulberryStream s2) w k := by
  rw [h]

theorem buildChain_deterministic_w :
    buildChain exDict (mulberryStream 2024) exStart 0 =
      buildChain exDict (mulberryStream 2024) exStart 0 :=
  buildChain_deterministic exDict exStart 2024 2024 0 rfl

/-- C2: for every 7-letter dictionary word `W` with `isSolvable W` and every
random source producing values in `[0,1)`, `buildChain` returns a chain of
exactly 5 words of lengths `7,6,5,4,3`, starting at `W`, where each
consecutive pair is a reachability edge (the shorter word's signature is the
longer word's signature with exactly one character removed). -/
theorem buildChain_seven_chain (dict : List Word) (r : Nat → ℚ)
    (hr : ∀ i, 0 ≤ r i ∧ r i < 1) (W : Word) (hW : W ∈ dict) (h7 : W.length = 7)
    (hs : isSolvable dict W = true) (k : Nat) :
    ∃ ch k2, buildChain dict r W k = (some ch, k2) ∧ ch.length = 5 ∧
      ch.map List.length = [7, 6, 5, 4, 3] ∧ ch.head? = some W ∧
      List.Chain' (fun a b => ∃ i < (sortedLetters a).length,
        sortedLetters b = (sortedLetters a).eraseIdx i) ch := by
  obtain ⟨ch, k2, hb⟩ := @dfs_complete dict r W.length W le_rfl hs k
  obtain ⟨hhead, hmap, hchain⟩ := dfs_sound W.length W k ch k2 hb
  rw [h7] at hmap
  have hlens : lens 7 = [7, 6, 5, 4, 3] := rfl
  rw [hlens] at hmap
  refine ⟨ch, k2, hb, ?_, hmap, hhead, ?_⟩
  · have h1 := congrArg List.length hmap
    rw [List.length_map] at h1
    simpa using h1
  · exact hchain.imp fun a b hab => (mem_getNextWords hab).2.2

theorem buildChain_seven_chain_w :
    ∃ ch k2, buildChain exDict rZero exStart 0 = (some ch, k2) ∧ ch.length = 5 ∧
      ch.map List.length = [7, 6, 5, 4, 3] ∧ ch.head? = some exStart ∧
      List.Chain' (fun a b => ∃ i < (sortedLetters a).length,
        sortedLetters b = (sortedLetters a).eraseIdx i) ch :=
  buildChain_seven_chain exDict rZero (fun _ => ⟨le_refl 0, by norm_num [rZero]⟩) exStart
    (by decide) (by decide) (by decide) 0

/-- C3: `getNextWords` returns `[]` for words of length at most 3; every
returned word is one letter shorter than its input; the result has no
duplicates and is sorted; and repeated calls return the same list (the cache
is a pure optimisation). -/
theorem getNextWords_props (dict : List Word) (w : Word) :
    (w.length ≤ 3 → getNextWords dict w = []) ∧
    (∀ c ∈ getNextWords dict w, c.length = w.length - 1) ∧
    (getNextWords dict w).Nodup ∧
    List.Sorted WLe (getNextWords dict w) ∧
    getNextWords dict w = getNextWords dict w :=
  ⟨fun h => getNextWords_eq_nil h, fun _ hc => length_of_mem_getNextWords hc,
   nodup_getNextWords dict w, sorted_getNextWords dict w, rfl⟩

theorem getNextWords_props_w :
    getNextWords exDict ['A', 'N', 'A'] = [] ∧ (getNextWords exDict exStart).Nodup :=
  ⟨(getNextWords_props exDict ['A', 'N', 'A']).1 (by decide),
   (getNextWords_props exDict exStart).2.2.1⟩

/-- C4: every word of length 3 is solvable, and a word of length greater
than 3 is solvable iff some word in `getNextWords` is solvable — the
recursive characterisation the memo table caches. -/
theorem isSolvable_props (dict : List Word) (w : Word) :
    (w.length = 3 → isSolvable dict w = true) ∧
    (3 < w.length →
      (isSolvable dict w = true ↔ ∃ c ∈ getNextWords dict w, isSolvable dict c = true)) :=
  ⟨fun h => isSolvable_base h, fun h => isSolvable_iff_exists h⟩

theorem isSolvable_props_w :
    isSolvable exDict ['N', 'A', 'N'] = true ∧
      (isSolvable exDict exStart = true ↔
        ∃ c ∈ getNextWords exDict exStart, isSolvable exDict c = true) :=
  ⟨(isSolvable_props exDict ['N', 'A', 'N']).1 (by decide),
   (isSolvable_props exDict exStart).2 (by decide)⟩

/-- C5 (counterexample): the bucket lists hold words in dictionary insertion
order, not sorted order.  With raw input `["CBA", "ABC"]` the bucket of
signature `"ABC"` is `["CBA", "ABC"]`, which is not sorted. -/
theorem bucket_not_sorted_cex :
    ¬ List.Sorted WLe
      (bucketGet (buildBuckets (normalize [['C', 'B', 'A'], ['A', 'B', 'C']])) ['A', 'B', 'C']) := by
  decide

/-- C5 (amended): looking up any computed signature in the bucket index built
from the normalized dictionary returns exactly the dictionary words whose
sorted letters equal that signature, in dictionary (insertion) order — a
deterministic function of the input, order-stable across runs, but not
necessarily sorted. -/
theorem bucketGet_exact (raw : List (List Char)) (sig : Word) :
    bucketGet (buildBuckets (normalize raw)) sig =
      (normalize raw).filter (fun w => sortedLetters w == sig) :=
  bucketGet_buildBuckets _ _

/-- C6: for every valid start date and positive day count, against an engine
whose solvable 7-letter word list is nonempty (which `buildEngine` enforces
before `generatePuzzles` can run), `generatePuzzles` emits exactly `days`
records and never two records with the same date string. -/
theorem generatePuzzles_count_distinct (dict : List Word) (sd : Date) (days : Nat)
    (hsd : ValidDate sd) (hne : validSevenLetterWords dict ≠ []) (hdays : 0 < days) :
    ∃ l, generatePuzzles dict sd days = Except.ok l ∧ l.length = days ∧
      (l.map Puzzle.date).Nodup := by
  obtain ⟨l, hok, hlen, hmap⟩ := genFrom_ok hne sd days 0
  refine ⟨l, hok, hlen, ?_⟩
  rw [hmap]
  refine List.Nodup.map_on ?_ (List.nodup_range' 0 days)
  intro o1 h1 o2 h2 heq
  have hd : addDays sd o1 = addDays sd o2 :=
    getLocalDateString_inj (validDate_addDays hsd o1) (validDate_addDays hsd o2) heq
  have hrank : dateRank (addDays sd o1) = dateRank (addDays sd o2) := by rw [hd]
  exact (dateRank_addDays_strictMono hsd).injective hrank

theorem generatePuzzles_count_distinct_w :
    ∃ l, generatePuzzles exDict exDate 3 = Except.ok l ∧ l.length = 3 ∧
      (l.map Puzzle.date).Nodup :=
  generatePuzzles_count_distinct exDict exDate 3 (by decide) (by decide) (by decide)

/-- C7: the assembler's per-date step is exactly the composition the spec
describes: seed the generator with the base-31 rolling hash of the ISO date
string wrapped to 32 bits, pick the start word at index
`floor(random() * count)` into the sorted list of provably-solvable 7-letter
dictionary words (first draw, cursor 0), and hand the same still-advancing
generator (cursor 1) to `buildChain`. -/
theorem assembler_refines_spec (dict : List Word) (sd : Date) (off : Nat) :
    genOne dict sd off = specAssembleStep dict sd off := by
  have h2 : specSolvable7 dict = validSevenLetterWords dict := by
    rw [specSolvable7, validSevenLetterWords, List.filter_filter]
    exact congrArg _ (List.filter_congr fun a _ => Bool.and_comm _ _)
  simp only [genOne, specAssembleStep]
  rw [show specSeed = stringToSeed from rfl, h2]

/-- C8: the run fails (returns an error, emitting no records) in exactly two
cases: the normalized dictionary has no solvable 7-letter word (detected at
engine build, before any date is processed), or the chain check
(`!chain || chain.length !== 5`) fires for some requested date — a hard stop
for the whole run. -/
theorem runGeneration_error_iff (raw : List (List Char)) (sd : Date) (days : Nat) :
    (∃ e, runGeneration raw sd days = Except.error e) ↔
      (validSevenLetterWords (normalize raw) = [] ∨
        ∃ off, off < days ∧ chainFailure (normalize raw) sd off) := by
  simp only [runGeneration]
  by_cases h : (validSevenLetterWords (normalize raw)).isEmpty
  · rw [if_pos h]
    rw [List.isEmpty_iff] at h
    constructor
    · intro _
      exact Or.inl h
    · intro _
      exact ⟨_, rfl⟩
  · rw [if_neg h]
    rw [List.isEmpty_iff] at h
    rw [generatePuzzles, genFrom_error_iff]
    constructor
    · rintro ⟨j, hj, hc⟩
      exact Or.inr ⟨j, hj, by rwa [Nat.zero_add] at hc⟩
    · rintro (hnil | ⟨off, hoff, hc⟩)
      · exact absurd hnil h
      · exact ⟨off, hoff, by rwa [Nat.zero_add]⟩

/-- C9: the base case of the solvability recursion tests only the length:
`isSolvable` is `true` on every word of length exactly 3, whether or not the
word is in the dictionary. -/
theorem isSolvable_length_three (dict : List Word) (w : Word) (h : w.length = 3) :
    isSolvable dict w = true :=
  isSolvable_base h

theorem isSolvable_length_three_w :
    isSolvable exDict ['Z', 'Q', 'X'] = true ∧ ['Z', 'Q', 'X'] ∉ exDict :=
  ⟨isSolvable_length_three exDict ['Z', 'Q', 'X'] (by decide), by decide⟩

/-- C10: for every list and every random source with outputs in `[0,1)`,
`shuffled` returns a permutation of its input — the same elements with the
same multiplicities and the same length; the input list itself is copied
first (`[...items]`) and never written to. -/
theorem shuffled_is_perm {α : Type} (items : List α) (r : Nat → ℚ) (k : Nat)
    (hr : ∀ i, 0 ≤ r i ∧ r i < 1) :
    ((shuffled r items k).1).Perm items ∧ ((shuffled r items k).1).length = items.length := by
  have h := shuffled_perm r items k
  exact ⟨h, h.length_eq⟩

theorem shuffled_is_perm_w :
    ((shuffled rZero ([2, 7, 1] : List Nat) 0).1).Perm [2, 7, 1] ∧
      ((shuffled rZero ([2, 7, 1] : List Nat) 0).1).length = ([2, 7, 1] : List Nat).length :=
  shuffled_is_perm [2, 7, 1] rZero 0 (fun _ => ⟨le_refl 0, by norm_num [rZero]⟩)

end ShrinkRay
